import Mathlib

/-!
Verification of the incremental index synchronization engine of the pkb
repository (src/main.py): the fingerprinter (get_file_hash, MD5 over
4096-byte chunks), the reference catalog derived from the index docstore,
and the sync planning / mutation pass (update_index).

Bytes are modelled as natural numbers below 256 in lists; 32-bit machine
arithmetic is modelled as Nat with explicit reduction modulo 2^32.
-/

namespace PKB

/-- The modulus 2^32 of 32-bit machine arithmetic. -/
def M32 : Nat := 4294967296

/-- The 32-bit bitwise complement (x assumed reduced mod 2^32). -/
def not32 (x : Nat) : Nat := (x % M32) ^^^ 4294967295

/-- The 32-bit left rotation by s bits (0 ≤ s < 32). -/
def rotl32 (x s : Nat) : Nat :=
  (((x % M32) <<< s) % M32) ||| ((x % M32) >>> (32 - s))

/-- The 64 MD5 round constants K[i] = floor(|sin(i+1)| * 2^32) (RFC 1321). -/
def md5K : List Nat :=
  [0xd76aa478, 0xe8c7b756, 0x242070db, 0xc1bdceee, 0xf57c0faf, 0x4787c62a, 0xa8304613, 0xfd469501,
   0x698098d8, 0x8b44f7af, 0xffff5bb1, 0x895cd7be, 0x6b901122, 0xfd987193, 0xa679438e, 0x49b40821,
   0xf61e2562, 0xc040b340, 0x265e5a51, 0xe9b6c7aa, 0xd62f105d, 0x02441453, 0xd8a1e681, 0xe7d3fbc8,
   0x21e1cde6, 0xc33707d6, 0xf4d50d87, 0x455a14ed, 0xa9e3e905, 0xfcefa3f8, 0x676f02d9, 0x8d2a4c8a,
   0xfffa3942, 0x8771f681, 0x6d9d6122, 0xfde5380c, 0xa4beea44, 0x4bdecfa9, 0xf6bb4b60, 0xbebfbc70,
   0x289b7ec6, 0xeaa127fa, 0xd4ef3085, 0x04881d05, 0xd9d4d039, 0xe6db99e5, 0x1fa27cf8, 0xc4ac5665,
   0xf4292244, 0x432aff97, 0xab9423a7, 0xfc93a039, 0x655b59c3, 0x8f0ccc92, 0xffeff47d, 0x85845dd1,
   0x6fa87e4f, 0xfe2ce6e0, 0xa3014314, 0x4e0811a1, 0xf7537e82, 0xbd3af235, 0x2ad7d2bb, 0xeb86d391]

/-- The 64 MD5 per-round left-rotation amounts (RFC 1321). -/
def md5s : List Nat :=
  [7, 12, 17, 22, 7, 12, 17, 22, 7, 12, 17, 22, 7, 12, 17, 22,
   5, 9, 14, 20, 5, 9, 14, 20, 5, 9, 14, 20, 5, 9, 14, 20,
   4, 11, 16, 23, 4, 11, 16, 23, 4, 11, 16, 23, 4, 11, 16, 23,
   6, 10, 15, 21, 6, 10, 15, 21, 6, 10, 15, 21, 6, 10, 15, 21]

/-- The MD5 nonlinear round function, selected by round index i. -/
def md5F (i b c d : Nat) : Nat :=
  if i < 16 then (b &&& c) ||| (not32 b &&& d)
  else if i < 32 then (d &&& b) ||| (not32 d &&& c)
  else if i < 48 then b ^^^ c ^^^ d
  else c ^^^ (b ||| not32 d)

/-- The MD5 message-word schedule, selected by round index i. -/
def md5g (i : Nat) : Nat :=
  if i < 16 then i
  else if i < 32 then (5 * i + 1) % 16
  else if i < 48 then (3 * i + 5) % 16
  else (7 * i) % 16

/-- Read the 32-bit little-endian word number g of a 64-byte block. -/
def getWord (block : List Nat) (g : Nat) : Nat :=
  block.getD (4 * g) 0 + 256 * block.getD (4 * g + 1) 0 +
    65536 * block.getD (4 * g + 2) 0 + 16777216 * block.getD (4 * g + 3) 0

/-- One MD5 round: transform the running (A, B, C, D) state at round i. -/
def md5Round (block : List Nat) (st : Nat × Nat × Nat × Nat) (i : Nat) :
    Nat × Nat × Nat × Nat :=
  let (a, b, c, d) := st
  let f := (md5F i b c d + a + md5K.getD i 0 + getWord block (md5g i)) % M32
  (d, (b + rotl32 f (md5s.getD i 0)) % M32, b, c)

/-- Process one 64-byte block: 64 rounds, then add the block result into
the chaining state (mod 2^32 componentwise). -/
def md5Block (st : Nat × Nat × Nat × Nat) (block : List Nat) :
    Nat × Nat × Nat × Nat :=
  let (a, b, c, d) := (List.range 64).foldl (md5Round block) st
  ((st.1 + a) % M32, (st.2.1 + b) % M32, (st.2.2.1 + c) % M32, (st.2.2.2 + d) % M32)

/-- Little-endian 4-byte encoding of a 32-bit word. -/
def le4 (n : Nat) : List Nat :=
  [n % 256, n / 256 % 256, n / 65536 % 256, n / 16777216 % 256]

/-- Little-endian 8-byte encoding of a 64-bit length field. -/
def le8 (n : Nat) : List Nat :=
  [n % 256, n / 256 % 256, n / 65536 % 256, n / 16777216 % 256,
   n / 4294967296 % 256, n / 1099511627776 % 256,
   n / 281474976710656 % 256, n / 72057594037927936 % 256]

/-- MD5 padding: append 0x80, zeros to 56 mod 64, then the bit length
of the original message as a 64-bit little-endian field. -/
def md5Pad (msg : List Nat) : List Nat :=
  msg ++ 128 :: List.replicate ((119 - msg.length % 64) % 64) 0 ++
    le8 ((8 * msg.length) % 18446744073709551616)

/-- Worker for splitChunks, structurally recursive on a fuel argument
that always bounds the list length, so that it evaluates by reduction. -/
def splitChunksGo : Nat → Nat → List Nat → List (List Nat)
  | _, _, [] => []
  | _, 0, _ :: _ => []
  | 0, _ + 1, _ :: _ => []
  | fuel + 1, k + 1, a :: l => ((a :: l).take (k + 1)) :: splitChunksGo fuel (k + 1) (l.drop k)

/-- Split a byte list into consecutive chunks of at most k bytes
(empty list of chunks for chunk size 0, which never arises). -/
def splitChunks (k : Nat) (l : List Nat) : List (List Nat) :=
  splitChunksGo l.length k l

/-- The 16-byte MD5 digest of a byte list. -/
def md5Digest (msg : List Nat) : List Nat :=
  let st := (splitChunks 64 (md5Pad msg)).foldl md5Block
    (0x67452301, 0xefcdab89, 0x98badcfe, 0x10325476)
  le4 st.1 ++ le4 st.2.1 ++ le4 st.2.2.1 ++ le4 st.2.2.2

/-- One lowercase hexadecimal digit. -/
def hexDigit (n : Nat) : Char :=
  if n < 10 then Char.ofNat (48 + n) else Char.ofNat (87 + n)

/-- Lowercase hexadecimal rendering of a byte list, two digits per byte. -/
def bytesToHex (bs : List Nat) : String :=
  String.mk (bs.foldr (fun b acc => hexDigit (b / 16 % 16) :: hexDigit (b % 16) :: acc) [])

/-- The 32-character lowercase hex MD5 digest of a byte list
(hashlib's hexdigest). -/
def md5Hex (msg : List Nat) : String := bytesToHex (md5Digest msg)

/-- The file system seen by the pass: maps a path to the file's content
bytes, or to none when the file cannot be read (open/read raises OSError). -/
def FileSystem : Type := String → Option (List Nat)

/-- get_file_hash (src/main.py lines 54-60): open the file, consume it in
4096-byte chunks feeding each chunk to the running MD5 (hashlib update
semantics: updating with successive chunks hashes their concatenation),
and return the hex digest.  A read failure raises, modelled as
Except.error. -/
def get_file_hash (fs : FileSystem) (filepath : String) : Except Unit String :=
  match fs filepath with
  | none => Except.error ()
  | some content =>
      Except.ok (md5Hex ((splitChunks 4096 content).foldl (fun acc chunk => acc ++ chunk) []))

/-- A document as used by update_index: its metadata fields file_path
(identity) and file_hash (possibly absent), plus its text content. -/
structure Document where
  file_path : String
  file_hash : Option String
  text : String
deriving DecidableEq, Repr

/-- The index state visible to update_index: its docstore's documents
(index.docstore.docs.values(), in iteration order). -/
structure IndexState where
  docstore : List Document
deriving DecidableEq, Repr

/-- existing_docs (src/main.py lines 104-107): the dict comprehension
mapping file_path to metadata.get("file_hash") over the docstore values;
a later entry with the same file_path overrides an earlier one, and a
missing "file_hash" key yields None (the inner none).  The outer none
means the key is absent from the dict. -/
def existing_docs (st : IndexState) (p : String) : Option (Option String) :=
  (st.docstore.reverse.find? (fun d => d.file_path == p)).map Document.file_hash

/-- The test on src/main.py line 120:
file_path not in existing_docs or existing_docs[file_path] != new_hash
(a stored None compares unequal to every string). -/
def upsertCond (stored : Option (Option String)) (new_hash : String) : Bool :=
  match stored with
  | none => true
  | some s => !(s == some new_hash)

/-- The classification loop of update_index (src/main.py lines 114-122):
for each document compute its file hash (a raised read error aborts the
whole loop), and either record the new hash in its metadata and append it
to documents_to_update, or leave it alone (returned here as the second,
unchanged list, which the source leaves implicit). -/
def planDocs (fs : FileSystem) (ex : String → Option (Option String)) :
    List Document → Except Unit (List Document × List Document)
  | [] => Except.ok ([], [])
  | doc :: rest =>
    match get_file_hash fs doc.file_path with
    | Except.error e => Except.error e
    | Except.ok new_hash =>
      match planDocs fs ex rest with
      | Except.error e => Except.error e
      | Except.ok (ups, unch) =>
        if upsertCond (ex doc.file_path) new_hash then
          Except.ok ({ doc with file_hash := some new_hash } :: ups, unch)
        else
          Except.ok (ups, doc :: unch)

/-- The observable report of a pass: either the "No documents need
updating" early return (line 125) or the "Index update completed.
Updated n documents." completion (lines 132-134). -/
inductive Outcome where
  | noChanges
  | updated (n : Nat)
deriving DecidableEq, Repr

/-- Everything a pass of update_index does that is observable to a
caller: its report, the final index state, the batches passed to
index.refresh_ref_docs, and how many times save_index ran. -/
structure PassResult where
  outcome : Outcome
  finalState : IndexState
  refreshCalls : List (List Document)
  saveCount : Nat
deriving DecidableEq, Repr

/-- Modelled from the spec: the external Index Mutator boundary
(index.refresh_ref_docs of llama_index, not part of this repository).
Per the spec's §4.4 boundary contract, each document in the batch
replaces any existing docstore entries sharing its identity and is
inserted when no such entry exists. -/
def refresh_ref_docs (st : IndexState) (docs : List Document) : IndexState :=
  { docstore :=
      docs.foldl
        (fun ds d => ds.filter (fun e => !(e.file_path == d.file_path)) ++ [d])
        st.docstore }

/-- update_index (src/main.py lines 99-134).  Loading the live documents
through SimpleDirectoryReader (lines 110-112) is the external Document
Source; the loaded list is taken as the all_documents argument. -/
def update_index (fs : FileSystem) (st : IndexState) (all_documents : List Document) :
    Except Unit PassResult :=
  match planDocs fs (existing_docs st) all_documents with
  | Except.error e => Except.error e
  | Except.ok (documents_to_update, _unchanged) =>
    if documents_to_update.isEmpty then
      Except.ok ⟨Outcome.noChanges, st, [], 0⟩
    else
      Except.ok ⟨Outcome.updated documents_to_update.length,
        refresh_ref_docs st documents_to_update, [documents_to_update], 1⟩

/-! ### Fingerprinter lemmas -/

theorem splitChunksGo_join (k : Nat) :
    ∀ (fuel : Nat) (l : List Nat), l.length ≤ fuel →
      (splitChunksGo fuel (k + 1) l).flatten = l := by
  intro fuel
  induction fuel with
  | zero =>
    intro l hl
    have hnil : l = [] := List.eq_nil_of_length_eq_zero (Nat.le_zero.mp hl)
    subst hnil
    rfl
  | succ fuel ih =>
    intro l hl
    cases l with
    | nil => rfl
    | cons a l =>
      have hle : (l.drop k).length ≤ fuel := by
        simp only [List.length_drop]
        simp only [List.length_cons, Nat.succ_le_succ_iff] at hl
        omega
      show (((a :: l).take (k + 1)) :: splitChunksGo fuel (k + 1) (l.drop k)).flatten = a :: l
      rw [List.flatten_cons, ih (l.drop k) hle, ← List.drop_succ_cons (n := k) (a := a)]
      exact List.take_append_drop (k + 1) (a :: l)

theorem splitChunks_join (k : Nat) (l : List Nat) :
    (splitChunks (k + 1) l).flatten = l :=
  splitChunksGo_join k l.length l (Nat.le_refl _)

theorem foldl_append_eq (cs : List (List Nat)) (init : List Nat) :
    cs.foldl (fun a b => a ++ b) init = init ++ cs.flatten := by
  induction cs generalizing init with
  | nil => simp
  | cons c cs ih => simp [List.foldl_cons, ih, List.flatten_cons, List.append_assoc]

/-- Feeding the 4096-byte chunks of a file to the running hash one by one
hashes exactly the file's content. -/
theorem get_file_hash_some (fs : FileSystem) (p : String) (c : List Nat)
    (h : fs p = some c) : get_file_hash fs p = Except.ok (md5Hex c) := by
  have h1 : (4095 : Nat) + 1 = 4096 := rfl
  have h2 := splitChunks_join 4095 c
  rw [h1] at h2
  simp [get_file_hash, h, foldl_append_eq, h2]

theorem get_file_hash_none (fs : FileSystem) (p : String)
    (h : fs p = none) : get_file_hash fs p = Except.error () := by
  simp [get_file_hash, h]

theorem hexList_length : ∀ bs : List Nat,
    (bs.foldr (fun b acc => hexDigit (b / 16 % 16) :: hexDigit (b % 16) :: acc) []).length
      = 2 * bs.length
  | [] => rfl
  | b :: bs => by
    simp only [List.foldr_cons, List.length_cons, hexList_length bs]
    omega

theorem bytesToHex_length (bs : List Nat) : (bytesToHex bs).length = 2 * bs.length := by
  simp [bytesToHex, String.length, hexList_length]

theorem md5Digest_length (msg : List Nat) : (md5Digest msg).length = 16 := by
  simp [md5Digest, le4]

theorem md5Hex_length (msg : List Nat) : (md5Hex msg).length = 32 := by
  simp [md5Hex, bytesToHex_length, md5Digest_length]

/-! ### Sync-planner characterization -/

/-- What the loop does to one document, when its file is readable:
some updated document if it is queued for upsert, none if unchanged. -/
def docUpsert? (fs : FileSystem) (ex : String → Option (Option String))
    (d : Document) : Option Document :=
  match get_file_hash fs d.file_path with
  | Except.ok h =>
      if upsertCond (ex d.file_path) h then some { d with file_hash := some h } else none
  | Except.error _ => none

/-- Whether the loop leaves a document alone (classified unchanged). -/
def docUnchanged (fs : FileSystem) (ex : String → Option (Option String))
    (d : Document) : Bool :=
  match get_file_hash fs d.file_path with
  | Except.ok h => !(upsertCond (ex d.file_path) h)
  | Except.error _ => false

theorem planDocs_ok_of_readable (fs : FileSystem) (ex : String → Option (Option String)) :
    ∀ docs : List Document, (∀ d ∈ docs, ∃ c, fs d.file_path = some c) →
      planDocs fs ex docs =
        Except.ok (docs.filterMap (docUpsert? fs ex), docs.filter (docUnchanged fs ex)) := by
  intro docs hread
  induction docs with
  | nil => rfl
  | cons d rest ih =>
    obtain ⟨c, hc⟩ := hread d (List.mem_cons_self d rest)
    have hhash := get_file_hash_some fs d.file_path c hc
    have ihr := ih (fun e he => hread e (List.mem_cons_of_mem d he))
    by_cases hcond : upsertCond (ex d.file_path) (md5Hex c) = true
    · simp [planDocs, hhash, ihr, hcond, docUpsert?, docUnchanged, List.filterMap_cons,
        List.filter_cons]
    · simp only [Bool.not_eq_true] at hcond
      simp [planDocs, hhash, ihr, hcond, docUpsert?, docUnchanged, List.filterMap_cons,
        List.filter_cons]

theorem planDocs_error_of_unreadable (fs : FileSystem) (ex : String → Option (Option String)) :
    ∀ docs : List Document, (∃ d ∈ docs, fs d.file_path = none) →
      planDocs fs ex docs = Except.error () := by
  intro docs hbad
  induction docs with
  | nil => exact absurd hbad (by simp)
  | cons d rest ih =>
    by_cases hd : fs d.file_path = none
    · simp [planDocs, get_file_hash_none fs d.file_path hd]
    · obtain ⟨e, he, hce⟩ := hbad
      rcases List.mem_cons.mp he with rfl | he'
      · exact absurd hce hd
      · cases hc : fs d.file_path with
        | none => exact absurd hc hd
        | some c =>
          simp [planDocs, get_file_hash_some fs d.file_path c hc, ih ⟨e, he', hce⟩]

theorem planDocs_ok_readable (fs : FileSystem) (ex : String → Option (Option String)) :
    ∀ (docs : List Document) (pr : List Document × List Document),
      planDocs fs ex docs = Except.ok pr → ∀ d ∈ docs, ∃ c, fs d.file_path = some c := by
  intro docs pr hok d hd
  cases hc : fs d.file_path with
  | some c => exact ⟨c, rfl⟩
  | none =>
    rw [planDocs_error_of_unreadable fs ex docs ⟨d, hd, hc⟩] at hok
    exact absurd hok (by simp)

/-! ### Reference-catalog behaviour under refresh -/

theorem refresh_nil (st : IndexState) : refresh_ref_docs st [] = st := rfl

theorem refresh_cons (st : IndexState) (d : Document) (rest : List Document) :
    refresh_ref_docs st (d :: rest) =
      refresh_ref_docs
        ⟨st.docstore.filter (fun e => !(e.file_path == d.file_path)) ++ [d]⟩ rest := rfl

theorem find?_filter_of {α : Type} {f q : α → Bool}
    (h : ∀ x, f x = true → q x = true) :
    ∀ l : List α, (l.filter q).find? f = l.find? f := by
  intro l
  induction l with
  | nil => rfl
  | cons a l ih =>
    by_cases hq : q a = true
    · by_cases hf : f a = true
      · simp [List.filter_cons, hq, List.find?_cons_of_pos, hf]
      · rw [List.filter_cons_of_pos hq, List.find?_cons_of_neg _ (by simp [hf]),
          List.find?_cons_of_neg _ (by simp [hf]), ih]
    · have hf : ¬(f a = true) := fun hfa => hq (h a hfa)
      rw [List.filter_cons_of_neg (by simp [hq]), ih, List.find?_cons_of_neg _ (by simp [hf])]

theorem find?_cons_false {α : Type} (f : α → Bool) (a : α) (l : List α)
    (h : f a = false) : (a :: l).find? f = l.find? f := by
  simp [List.find?, h]

theorem find?_cons_true {α : Type} (f : α → Bool) (a : α) (l : List α)
    (h : f a = true) : (a :: l).find? f = some a := by
  simp [List.find?, h]

theorem existing_step_ne (st : IndexState) (d : Document) (p : String)
    (h : (d.file_path == p) = false) :
    existing_docs ⟨st.docstore.filter (fun e => !(e.file_path == d.file_path)) ++ [d]⟩ p
      = existing_docs st p := by
  have hfq : ∀ x : Document,
      (x.file_path == p) = true → (!(x.file_path == d.file_path)) = true := by
    intro x hx
    have hx' : x.file_path = p := by simpa using hx
    have hdp : ¬(d.file_path = p) := by simpa using h
    simp [hx']
    intro hcontra
    exact hdp hcontra.symm
  simp only [existing_docs, List.reverse_append, List.reverse_cons, List.reverse_nil,
    List.nil_append, List.singleton_append]
  rw [find?_cons_false, ← List.filter_reverse, find?_filter_of hfq]
  exact h

theorem existing_step_eq (st : IndexState) (d : Document) (p : String)
    (h : (d.file_path == p) = true) :
    existing_docs ⟨st.docstore.filter (fun e => !(e.file_path == d.file_path)) ++ [d]⟩ p
      = some d.file_hash := by
  simp only [existing_docs, List.reverse_append, List.reverse_cons, List.reverse_nil,
    List.nil_append, List.singleton_append]
  rw [find?_cons_true]
  · rfl
  · exact h

/-- Identities untouched by the batch keep their catalog entry. -/
theorem existing_refresh_not_mem (p : String) :
    ∀ (ups : List Document) (st : IndexState), (∀ d ∈ ups, ¬(d.file_path = p)) →
      existing_docs (refresh_ref_docs st ups) p = existing_docs st p := by
  intro ups
  induction ups with
  | nil => intro st _; rfl
  | cons d rest ih =>
    intro st hne
    rw [refresh_cons]
    rw [ih _ (fun e he => hne e (List.mem_cons_of_mem d he))]
    exact existing_step_ne st d p (by simpa using hne d (List.mem_cons_self d rest))

/-- An identity covered by the batch ends with the batch's recorded
fingerprint (all batch documents at that identity carrying the same
file_hash). -/
theorem existing_refresh_mem (p : String) (v : Option String) :
    ∀ (ups : List Document) (st : IndexState), (∃ d ∈ ups, d.file_path = p) →
      (∀ d ∈ ups, d.file_path = p → d.file_hash = v) →
      existing_docs (refresh_ref_docs st ups) p = some (v) := by
  intro ups
  induction ups with
  | nil => intro st hex _; exact absurd hex (by simp)
  | cons d rest ih =>
    intro st hex hall
    rw [refresh_cons]
    by_cases hrest : ∃ e ∈ rest, e.file_path = p
    · exact ih _ hrest (fun e he hp => hall e (List.mem_cons_of_mem d he) hp)
    · have hd : d.file_path = p := by
        obtain ⟨e, he, hpe⟩ := hex
        rcases List.mem_cons.mp he with rfl | he'
        · exact hpe
        · exact absurd ⟨e, he', hpe⟩ hrest
      have hnr : ∀ e ∈ rest, ¬(e.file_path = p) := by
        intro e he hpe
        exact hrest ⟨e, he, hpe⟩
      rw [existing_refresh_not_mem p rest _ hnr]
      rw [existing_step_eq st d p (by simp [hd])]
      rw [hall d (List.mem_cons_self d rest) hd]

/-- Docstore entries whose identity is not in the batch survive refresh. -/
theorem mem_refresh_of_not_mem (e : Document) :
    ∀ (ups : List Document) (st : IndexState), e ∈ st.docstore →
      (∀ d ∈ ups, ¬(d.file_path = e.file_path)) →
      e ∈ (refresh_ref_docs st ups).docstore := by
  intro ups
  induction ups with
  | nil => intro st he _; exact he
  | cons d rest ih =>
    intro st he hne
    rw [refresh_cons]
    refine ih _ ?_ (fun x hx => hne x (List.mem_cons_of_mem d hx))
    refine List.mem_append_left _ (List.mem_filter.mpr ⟨he, ?_⟩)
    have := hne d (List.mem_cons_self d rest)
    simp only [Bool.not_eq_true']
    simp only [beq_eq_false_iff_ne, ne_eq]
    intro hcontra
    exact this hcontra.symm

/-! ### Claim support lemmas -/

theorem doc_update_inj (e d : Document) (a b : Option String)
    (h : ({ e with file_hash := a } : Document) = { d with file_hash := b }) :
    e.file_path = d.file_path ∧ a = b ∧ e.text = d.text := by
  cases e
  cases d
  simp only [Document.mk.injEq] at h
  exact h

theorem upsertCond_iff (stored : Option (Option String)) (hsh : String) :
    upsertCond stored hsh = true ↔
      (stored = none ∨ ∃ s, stored = some s ∧ s ≠ some hsh) := by
  cases stored with
  | none => simp [upsertCond]
  | some s =>
    simp only [upsertCond, Bool.not_eq_true', beq_eq_false_iff_ne, ne_eq,
      reduceCtorEq, false_or, Option.some.injEq]
    constructor
    · intro h
      exact ⟨s, rfl, h⟩
    · rintro ⟨t, rfl, ht⟩
      exact ht

theorem docUpsert?_eq_some_iff (fs : FileSystem) (ex : String → Option (Option String))
    (e u : Document) :
    docUpsert? fs ex e = some u ↔
      ∃ hsh, get_file_hash fs e.file_path = Except.ok hsh ∧
        upsertCond (ex e.file_path) hsh = true ∧
        u = { e with file_hash := some hsh } := by
  unfold docUpsert?
  cases hg : get_file_hash fs e.file_path with
  | error err => simp [hg]
  | ok hsh =>
    by_cases hcond : upsertCond (ex e.file_path) hsh = true
    · simp only [hg, hcond, if_true, Option.some.injEq, Except.ok.injEq]
      constructor
      · intro h
        exact ⟨hsh, rfl, hcond, h.symm⟩
      · rintro ⟨h2, rfl, _, rfl⟩
        rfl
    · simp only [hg, hcond, if_false, Except.ok.injEq, reduceCtorEq, false_iff, not_exists]
      rintro h2 ⟨rfl, hc2, _⟩
      exact hcond hc2

theorem docUnchanged_iff (fs : FileSystem) (ex : String → Option (Option String))
    (d : Document) (c : List Nat) (hc : fs d.file_path = some c) :
    docUnchanged fs ex d = true ↔ upsertCond (ex d.file_path) (md5Hex c) = false := by
  unfold docUnchanged
  rw [get_file_hash_some fs d.file_path c hc]
  simp

theorem mem_filterMap_upsert_iff (fs : FileSystem) (ex : String → Option (Option String))
    (docs : List Document) (d : Document) (c : List Nat)
    (hd : d ∈ docs) (hc : fs d.file_path = some c) :
    ({ d with file_hash := some (md5Hex c) } ∈ docs.filterMap (docUpsert? fs ex))
      ↔ upsertCond (ex d.file_path) (md5Hex c) = true := by
  constructor
  · intro hmem
    obtain ⟨e, _, heq⟩ := List.mem_filterMap.mp hmem
    obtain ⟨hsh, hge, hcond, hu⟩ := (docUpsert?_eq_some_iff fs ex e _).mp heq
    obtain ⟨hpath, hhash, _⟩ := doc_update_inj e d (some hsh) (some (md5Hex c)) hu.symm
    rw [hpath] at hge hcond
    rw [get_file_hash_some fs d.file_path c hc] at hge
    have : hsh = md5Hex c := by
      have := Except.ok.inj hge
      exact this.symm
    rw [this] at hcond
    exact hcond
  · intro hcond
    refine List.mem_filterMap.mpr ⟨d, hd, ?_⟩
    exact (docUpsert?_eq_some_iff fs ex d _).mpr
      ⟨md5Hex c, get_file_hash_some fs d.file_path c hc, hcond, rfl⟩

theorem mem_filter_unchanged_iff (fs : FileSystem) (ex : String → Option (Option String))
    (docs : List Document) (d : Document) (c : List Nat)
    (hd : d ∈ docs) (hc : fs d.file_path = some c) :
    (d ∈ docs.filter (docUnchanged fs ex))
      ↔ upsertCond (ex d.file_path) (md5Hex c) = false := by
  rw [List.mem_filter]
  constructor
  · intro h
    exact (docUnchanged_iff fs ex d c hc).mp h.2
  · intro h
    exact ⟨hd, (docUnchanged_iff fs ex d c hc).mpr h⟩

theorem update_index_of_plan_empty (fs : FileSystem) (st : IndexState)
    (docs unch : List Document)
    (hp : planDocs fs (existing_docs st) docs = Except.ok ([], unch)) :
    update_index fs st docs = Except.ok ⟨Outcome.noChanges, st, [], 0⟩ := by
  simp [update_index, hp]

theorem update_index_of_plan_nonempty (fs : FileSystem) (st : IndexState)
    (docs ups unch : List Document)
    (hp : planDocs fs (existing_docs st) docs = Except.ok (ups, unch)) (hne : ups ≠ []) :
    update_index fs st docs =
      Except.ok ⟨Outcome.updated ups.length, refresh_ref_docs st ups, [ups], 1⟩ := by
  have hie : ups.isEmpty = false := by
    cases ups with
    | nil => exact absurd rfl hne
    | cons a l => rfl
  simp [update_index, hp, hie]

theorem update_index_ok_cases (fs : FileSystem) (st : IndexState)
    (docs : List Document) (r : PassResult)
    (h : update_index fs st docs = Except.ok r) :
    ∃ ups unch, planDocs fs (existing_docs st) docs = Except.ok (ups, unch) ∧
      ((ups = [] ∧ r = ⟨Outcome.noChanges, st, [], 0⟩) ∨
       (ups ≠ [] ∧
        r = ⟨Outcome.updated ups.length, refresh_ref_docs st ups, [ups], 1⟩)) := by
  cases hp : planDocs fs (existing_docs st) docs with
  | error err =>
    rw [update_index, hp] at h
    exact absurd h (by simp)
  | ok pr =>
    obtain ⟨ups, unch⟩ := pr
    refine ⟨ups, unch, rfl, ?_⟩
    by_cases hups : ups = []
    · left
      subst hups
      have h2 := update_index_of_plan_empty fs st docs unch hp
      rw [h2] at h
      exact ⟨rfl, (Except.ok.inj h).symm⟩
    · right
      have h2 := update_index_of_plan_nonempty fs st docs ups unch hp hups
      rw [h2] at h
      exact ⟨hups, (Except.ok.inj h).symm⟩

theorem ups_elem_spec (fs : FileSystem) (ex : String → Option (Option String))
    (docs : List Document) (u : Document)
    (hu : u ∈ docs.filterMap (docUpsert? fs ex)) :
    ∃ e ∈ docs, ∃ hsh, get_file_hash fs e.file_path = Except.ok hsh ∧
      upsertCond (ex e.file_path) hsh = true ∧
      u = { e with file_hash := some hsh } := by
  obtain ⟨e, he, heq⟩ := List.mem_filterMap.mp hu
  obtain ⟨hsh, h1, h2, h3⟩ := (docUpsert?_eq_some_iff fs ex e u).mp heq
  exact ⟨e, he, hsh, h1, h2, h3⟩

/-- After refreshing with the planned batch, every live readable identity
carries the freshly computed fingerprint in the catalog. -/
theorem existing_after_refresh (fs : FileSystem) (st : IndexState) (docs : List Document)
    (d : Document) (c : List Nat) (hd : d ∈ docs) (hc : fs d.file_path = some c) :
    existing_docs
      (refresh_ref_docs st (docs.filterMap (docUpsert? fs (existing_docs st))))
      d.file_path = some (some (md5Hex c)) := by
  by_cases hcond : upsertCond (existing_docs st d.file_path) (md5Hex c) = true
  · apply existing_refresh_mem
    · exact ⟨{ d with file_hash := some (md5Hex c) },
        (mem_filterMap_upsert_iff fs (existing_docs st) docs d c hd hc).mpr hcond, rfl⟩
    · intro u hu hup
      obtain ⟨e, _, hsh, h1, _, h3⟩ :=
        ups_elem_spec fs (existing_docs st) docs u hu
      subst h3
      have hpe : e.file_path = d.file_path := hup
      rw [hpe, get_file_hash_some fs d.file_path c hc] at h1
      have hhs : md5Hex c = hsh := Except.ok.inj h1
      show some hsh = some (md5Hex c)
      rw [hhs]
  · have hcf : upsertCond (existing_docs st d.file_path) (md5Hex c) = false :=
      Bool.eq_false_iff.mpr hcond
    cases hex : existing_docs st d.file_path with
    | none =>
      rw [hex] at hcf
      exact absurd hcf (by simp [upsertCond])
    | some stored =>
      rw [hex] at hcf
      have hst : stored = some (md5Hex c) := by
        simpa [upsertCond] using hcf
      have hno : ∀ u ∈ docs.filterMap (docUpsert? fs (existing_docs st)),
          ¬(u.file_path = d.file_path) := by
        intro u hu hup
        obtain ⟨e, _, hsh, h1, h2, h3⟩ :=
          ups_elem_spec fs (existing_docs st) docs u hu
        subst h3
        have hpe : e.file_path = d.file_path := hup
        rw [hpe, get_file_hash_some fs d.file_path c hc] at h1
        have hhs : md5Hex c = hsh := Except.ok.inj h1
        rw [hpe, ← hhs, hex] at h2
        rw [h2] at hcf
        exact absurd hcf (by simp)
      rw [existing_refresh_not_mem d.file_path _ st hno, hex, hst]

/-! ### Concrete fixtures used by the witnesses -/

/-- A live tree with two readable files: /notes/a.md with bytes "hi" and
/notes/b.md with bytes "yo". -/
def fsA : FileSystem := fun p =>
  if p = "/notes/a.md" then some [104, 105]
  else if p = "/notes/b.md" then some [121, 111]
  else none

def docA : Document := ⟨"/notes/a.md", none, "hi"⟩

def docB : Document := ⟨"/notes/b.md", none, "yo"⟩

/-- docA with its freshly computed fingerprint recorded. -/
def docAh : Document := { docA with file_hash := some (md5Hex [104, 105]) }

/-- docB with its freshly computed fingerprint recorded. -/
def docBh : Document := { docB with file_hash := some (md5Hex [121, 111]) }

def stEmpty : IndexState := ⟨[]⟩

/-! ### Claims -/

/-- C8: the fingerprinter is a deterministic function of the content
bytes: any file whose content is c hashes to md5Hex c — computed by
folding the content's 4096-byte chunks into the running hash — so two
files with identical content get identical digests, and the digest is a
fixed-length (32-character) hex string.  (The clause "distinct contents
give distinct digests with overwhelming probability" is a probabilistic
statement about MD5 and has no formal counterpart; concrete distinctness
is evaluated in the witness.) -/
theorem C8_fingerprinter (fs fs2 : FileSystem) (p p2 : String) (c : List Nat)
    (h : fs p = some c) (h2 : fs2 p2 = some c) :
    get_file_hash fs p = Except.ok (md5Hex c) ∧
    get_file_hash fs2 p2 = get_file_hash fs p ∧
    (md5Hex c).length = 32 := by
  refine ⟨get_file_hash_some fs p c h, ?_, md5Hex_length c⟩
  rw [get_file_hash_some fs p c h, get_file_hash_some fs2 p2 c h2]

theorem C8_fingerprinter_witness :
    get_file_hash fsA "/notes/a.md" = Except.ok (md5Hex [104, 105]) ∧
    md5Hex [104, 105] = "49f68a5c8493ec2c0bf489821c21fc3b" ∧
    md5Hex [121, 111] = "6d0007e52f7afb7d5a0650b0ffb8a4d1" ∧
    "49f68a5c8493ec2c0bf489821c21fc3b".length = 32 := by
  have h := C8_fingerprinter fsA fsA "/notes/a.md" "/notes/a.md" [104, 105]
    (by rfl) (by rfl)
  exact ⟨h.1, by rfl, by rfl, by rfl⟩

/-- C5 counterexample: with /notes/a.md readable and /notes/b.md
unreadable, the pass does not classify the readable document and report
the unreadable one separately — it aborts entirely with the raised read
error, producing no pass result at all. -/
theorem C5_counterexample :
    update_index (fun p => if p = "/notes/a.md" then some [104, 105] else none)
      ⟨[]⟩ [⟨"/notes/a.md", none, "hi"⟩, ⟨"/notes/b.md", none, "yo"⟩]
      = Except.error () := by rfl

/-- C5 (amended): when reading any live document's content fails during
fingerprinting, the exception propagates immediately and the entire pass
aborts with an error: no change set is produced, no document is
classified, no mutation or save happens, and there is no per-document
failure report. -/
theorem C5_read_error_aborts (fs : FileSystem) (st : IndexState) (docs : List Document)
    (h : ∃ d ∈ docs, fs d.file_path = none) :
    update_index fs st docs = Except.error () := by
  have hp := planDocs_error_of_unreadable fs (existing_docs st) docs h
  simp [update_index, hp]

theorem C5_read_error_aborts_witness :
    update_index (fun _ => none) ⟨[]⟩ [⟨"/notes/a.md", none, "hi"⟩] = Except.error () :=
  C5_read_error_aborts (fun _ => none) ⟨[]⟩ [⟨"/notes/a.md", none, "hi"⟩]
    ⟨⟨"/notes/a.md", none, "hi"⟩, by simp, rfl⟩

/-- C6: when the planner's to_upsert is empty, update_index reports the
distinct "no changes needed" outcome: a success (not an error), with a
report distinguishable from the updated-n-documents report of a mutating
pass; the empty live set is an instance. -/
theorem C6_no_changes_outcome (fs : FileSystem) (st : IndexState)
    (docs unch : List Document)
    (h : planDocs fs (existing_docs st) docs = Except.ok ([], unch)) :
    update_index fs st docs = Except.ok ⟨Outcome.noChanges, st, [], 0⟩ ∧
    (∀ n, Outcome.noChanges ≠ Outcome.updated n) ∧
    (∀ r : PassResult, (Except.ok r : Except Unit PassResult) ≠ Except.error ()) ∧
    update_index fs st [] = Except.ok ⟨Outcome.noChanges, st, [], 0⟩ := by
  refine ⟨update_index_of_plan_empty fs st docs unch h, ?_, ?_, ?_⟩
  · intro n hcontra
    exact Outcome.noConfusion hcontra
  · intro r hcontra
    exact Except.noConfusion hcontra
  · exact update_index_of_plan_empty fs st [] [] rfl

theorem C6_no_changes_outcome_witness :
    update_index fsA ⟨[docAh]⟩ [docA] = Except.ok ⟨Outcome.noChanges, ⟨[docAh]⟩, [], 0⟩ ∧
    (∀ n, Outcome.noChanges ≠ Outcome.updated n) :=
  have h := C6_no_changes_outcome fsA ⟨[docAh]⟩ [docA] [docA] (by rfl)
  ⟨h.1, h.2.1⟩

/-- C7: a catalog entry whose file_hash metadata is missing is looked up
without error as "no recorded fingerprint" (some none), and the live
document at that identity always satisfies the upsert test and lands in
to_upsert, never in unchanged. -/
theorem C7_missing_fingerprint (fs : FileSystem) (st : IndexState)
    (docs ups unch : List Document) (d : Document) (c : List Nat)
    (hplan : planDocs fs (existing_docs st) docs = Except.ok (ups, unch))
    (hd : d ∈ docs) (hc : fs d.file_path = some c)
    (hmiss : existing_docs st d.file_path = some none) :
    upsertCond (existing_docs st d.file_path) (md5Hex c) = true ∧
    { d with file_hash := some (md5Hex c) } ∈ ups ∧ ¬(d ∈ unch) := by
  have hread := planDocs_ok_readable fs (existing_docs st) docs (ups, unch) hplan
  have hspec := planDocs_ok_of_readable fs (existing_docs st) docs hread
  rw [hplan] at hspec
  have hpair := Except.ok.inj hspec
  have hu : ups = docs.filterMap (docUpsert? fs (existing_docs st)) :=
    congrArg Prod.fst hpair
  have hn : unch = docs.filter (docUnchanged fs (existing_docs st)) :=
    congrArg Prod.snd hpair
  have hcond : upsertCond (existing_docs st d.file_path) (md5Hex c) = true := by
    rw [hmiss]
    simp [upsertCond]
  refine ⟨hcond, ?_, ?_⟩
  · rw [hu]
    exact (mem_filterMap_upsert_iff fs (existing_docs st) docs d c hd hc).mpr hcond
  · rw [hn]
    intro hmem
    have hfalse := (mem_filter_unchanged_iff fs (existing_docs st) docs d c hd hc).mp hmem
    simp [hcond] at hfalse

theorem C7_missing_fingerprint_witness :
    upsertCond (existing_docs ⟨[⟨"/notes/a.md", none, "stale"⟩]⟩ docA.file_path)
      (md5Hex [104, 105]) = true ∧
    docAh ∈ [docAh] ∧ ¬(docA ∈ ([] : List Document)) :=
  C7_missing_fingerprint fsA ⟨[⟨"/notes/a.md", none, "stale"⟩]⟩ [docA] [docAh] []
    docA [104, 105] (by rfl) (by simp) (by rfl) (by rfl)

/-- C10: implicit frame of update_index — unchanged documents are exactly
input documents, untouched; every to_upsert document is an input document
with only its file_hash metadata rewritten to the fresh digest; and an
empty to_upsert returns early, leaving the index state untouched, calling
refresh_ref_docs on nothing and save_index zero times. -/
theorem C10_frame (fs : FileSystem) (st : IndexState) (docs ups unch : List Document)
    (h : planDocs fs (existing_docs st) docs = Except.ok (ups, unch)) :
    (∀ d ∈ unch, d ∈ docs) ∧
    (∀ u ∈ ups, ∃ d ∈ docs, ∃ hsh, get_file_hash fs d.file_path = Except.ok hsh ∧
        u = { d with file_hash := some hsh }) ∧
    (ups = [] → update_index fs st docs = Except.ok ⟨Outcome.noChanges, st, [], 0⟩) := by
  have hread := planDocs_ok_readable fs (existing_docs st) docs (ups, unch) h
  have hspec := planDocs_ok_of_readable fs (existing_docs st) docs hread
  rw [h] at hspec
  have hpair := Except.ok.inj hspec
  have hu : ups = docs.filterMap (docUpsert? fs (existing_docs st)) :=
    congrArg Prod.fst hpair
  have hn : unch = docs.filter (docUnchanged fs (existing_docs st)) :=
    congrArg Prod.snd hpair
  refine ⟨?_, ?_, ?_⟩
  · intro d hd
    rw [hn] at hd
    exact (List.mem_filter.mp hd).1
  · intro u hu2
    rw [hu] at hu2
    obtain ⟨e, he, hsh, h1, _, h3⟩ := ups_elem_spec fs (existing_docs st) docs u hu2
    exact ⟨e, he, hsh, h1, h3⟩
  · intro hempty
    subst hempty
    exact update_index_of_plan_empty fs st docs unch h

theorem C10_frame_witness :
    (∀ d ∈ ([] : List Document), d ∈ [docA]) ∧
    (∀ u ∈ [docAh], ∃ d ∈ [docA], ∃ hsh, get_file_hash fsA d.file_path = Except.ok hsh ∧
        u = { d with file_hash := some hsh }) ∧
    ([docAh] = [] →
      update_index fsA stEmpty [docA] = Except.ok ⟨Outcome.noChanges, stEmpty, [], 0⟩) :=
  C10_frame fsA stEmpty [docA] [docAh] [] (by rfl)

/-- C1: a live readable document is queued for upsert precisely when its
identity is absent from the catalog or the stored fingerprint differs
from the freshly computed one; otherwise it is classified unchanged; and
it is never in both groups. -/
theorem C1_classification (fs : FileSystem) (st : IndexState)
    (docs ups unch : List Document) (d : Document) (c : List Nat)
    (hplan : planDocs fs (existing_docs st) docs = Except.ok (ups, unch))
    (hd : d ∈ docs) (hc : fs d.file_path = some c) :
    (({ d with file_hash := some (md5Hex c) } ∈ ups) ↔
      (existing_docs st d.file_path = none ∨
        ∃ stored, existing_docs st d.file_path = some stored ∧
          stored ≠ some (md5Hex c))) ∧
    ((d ∈ unch) ↔
      ¬(existing_docs st d.file_path = none ∨
        ∃ stored, existing_docs st d.file_path = some stored ∧
          stored ≠ some (md5Hex c))) ∧
    ¬({ d with file_hash := some (md5Hex c) } ∈ ups ∧ d ∈ unch) := by
  have hread := planDocs_ok_readable fs (existing_docs st) docs (ups, unch) hplan
  have hspec := planDocs_ok_of_readable fs (existing_docs st) docs hread
  rw [hplan] at hspec
  have hpair := Except.ok.inj hspec
  have hu : ups = docs.filterMap (docUpsert? fs (existing_docs st)) :=
    congrArg Prod.fst hpair
  have hn : unch = docs.filter (docUnchanged fs (existing_docs st)) :=
    congrArg Prod.snd hpair
  have hmemu : ({ d with file_hash := some (md5Hex c) } ∈ ups) ↔
      upsertCond (existing_docs st d.file_path) (md5Hex c) = true := by
    rw [hu]
    exact mem_filterMap_upsert_iff fs (existing_docs st) docs d c hd hc
  have hmemn : (d ∈ unch) ↔
      upsertCond (existing_docs st d.file_path) (md5Hex c) = false := by
    rw [hn]
    exact mem_filter_unchanged_iff fs (existing_docs st) docs d c hd hc
  have hiff := upsertCond_iff (existing_docs st d.file_path) (md5Hex c)
  refine ⟨hmemu.trans hiff, ?_, ?_⟩
  · rw [hmemn]
    constructor
    · intro hf hcontra
      have ht := hiff.mpr hcontra
      rw [hf] at ht
      exact Bool.noConfusion ht
    · intro hnot
      exact Bool.eq_false_iff.mpr (fun ht => hnot (hiff.mp ht))
  · rintro ⟨h1, h2⟩
    have ht := hmemu.mp h1
    have hf := hmemn.mp h2
    rw [ht] at hf
    exact Bool.noConfusion hf

theorem C1_classification_witness :
    ((docAh ∈ [docAh]) ↔
      (existing_docs stEmpty docA.file_path = none ∨
        ∃ stored, existing_docs stEmpty docA.file_path = some stored ∧
          stored ≠ some (md5Hex [104, 105]))) ∧
    ((docA ∈ ([] : List Document)) ↔
      ¬(existing_docs stEmpty docA.file_path = none ∨
        ∃ stored, existing_docs stEmpty docA.file_path = some stored ∧
          stored ≠ some (md5Hex [104, 105]))) ∧
    ¬(docAh ∈ [docAh] ∧ docA ∈ ([] : List Document)) :=
  C1_classification fsA stEmpty [docA] [docAh] [] docA [104, 105]
    (by rfl) (by simp) (by rfl)

/-- C2: every document handed to index.refresh_ref_docs passed the upsert
test against the catalog as it was at planning time: its identity was
absent or the stored fingerprint differs from the freshly computed hash
(which is recorded in the document's file_hash metadata). -/
theorem C2_minimality (fs : FileSystem) (st : IndexState) (docs : List Document)
    (r : PassResult) (batch : List Document) (d : Document)
    (h : update_index fs st docs = Except.ok r)
    (hb : batch ∈ r.refreshCalls) (hd : d ∈ batch) :
    ∃ hsh, get_file_hash fs d.file_path = Except.ok hsh ∧
      upsertCond (existing_docs st d.file_path) hsh = true ∧
      d.file_hash = some hsh ∧
      ∀ stored, existing_docs st d.file_path = some stored → stored ≠ some hsh := by
  obtain ⟨ups, unch, hp, hcase⟩ := update_index_ok_cases fs st docs r h
  rcases hcase with ⟨hupse, hr⟩ | ⟨hne, hr⟩
  · subst hr
    simp at hb
  · subst hr
    simp at hb
    subst hb
    have hread := planDocs_ok_readable fs (existing_docs st) docs (batch, unch) hp
    have hspec := planDocs_ok_of_readable fs (existing_docs st) docs hread
    rw [hp] at hspec
    have hu : batch = docs.filterMap (docUpsert? fs (existing_docs st)) :=
      congrArg Prod.fst (Except.ok.inj hspec)
    rw [hu] at hd
    obtain ⟨e, he, hsh, h1, h2, h3⟩ := ups_elem_spec fs (existing_docs st) docs d hd
    subst h3
    refine ⟨hsh, h1, h2, rfl, ?_⟩
    intro stored hstored hcontra
    rw [hstored, hcontra] at h2
    simp [upsertCond] at h2

theorem C2_minimality_witness :
    ∃ hsh, get_file_hash fsA docAh.file_path = Except.ok hsh ∧
      upsertCond (existing_docs stEmpty docAh.file_path) hsh = true ∧
      docAh.file_hash = some hsh ∧
      ∀ stored, existing_docs stEmpty docAh.file_path = some stored →
        stored ≠ some hsh :=
  C2_minimality fsA stEmpty [docA] ⟨Outcome.updated 1, ⟨[docAh]⟩, [[docAh]], 1⟩
    [docAh] docAh (by rfl) (by simp) (by simp)

/-- C9: update_index removes nothing from the catalog: an index entry
whose identity is not among the live documents survives the pass in the
docstore, and its catalog lookup is unchanged. -/
theorem C9_no_removal (fs : FileSystem) (st : IndexState) (docs : List Document)
    (r : PassResult) (e : Document)
    (h : update_index fs st docs = Except.ok r)
    (he : e ∈ st.docstore)
    (hnl : ∀ d ∈ docs, ¬(d.file_path = e.file_path)) :
    e ∈ r.finalState.docstore ∧
    existing_docs r.finalState e.file_path = existing_docs st e.file_path := by
  obtain ⟨ups, unch, hp, hcase⟩ := update_index_ok_cases fs st docs r h
  have hread := planDocs_ok_readable fs (existing_docs st) docs (ups, unch) hp
  have hspec := planDocs_ok_of_readable fs (existing_docs st) docs hread
  rw [hp] at hspec
  have hu : ups = docs.filterMap (docUpsert? fs (existing_docs st)) :=
    congrArg Prod.fst (Except.ok.inj hspec)
  have hupspath : ∀ u ∈ ups, ¬(u.file_path = e.file_path) := by
    intro u hu2 hpe
    rw [hu] at hu2
    obtain ⟨e2, he2, hsh, _, _, h3⟩ := ups_elem_spec fs (existing_docs st) docs u hu2
    subst h3
    exact hnl e2 he2 hpe
  rcases hcase with ⟨_, hr⟩ | ⟨_, hr⟩
  · subst hr
    exact ⟨he, rfl⟩
  · subst hr
    exact ⟨mem_refresh_of_not_mem e ups st he hupspath,
      existing_refresh_not_mem e.file_path ups st hupspath⟩

theorem C9_no_removal_witness :
    (⟨"/notes/c.md", some "abc", "old"⟩ : Document) ∈
      (⟨[⟨"/notes/c.md", some "abc", "old"⟩, docAh]⟩ : IndexState).docstore ∧
    existing_docs ⟨[⟨"/notes/c.md", some "abc", "old"⟩, docAh]⟩ "/notes/c.md"
      = existing_docs ⟨[⟨"/notes/c.md", some "abc", "old"⟩]⟩ "/notes/c.md" :=
  C9_no_removal fsA ⟨[⟨"/notes/c.md", some "abc", "old"⟩]⟩ [docA]
    ⟨Outcome.updated 1, ⟨[⟨"/notes/c.md", some "abc", "old"⟩, docAh]⟩, [[docAh]], 1⟩
    ⟨"/notes/c.md", some "abc", "old"⟩ (by rfl) (by simp) (by decide)

/-- C4: planning is order-independent: a permutation of the live document
sequence plans successfully and yields permuted to_upsert and unchanged
groups — in particular, the same sets of classified identities. -/
theorem C4_order_independence (fs : FileSystem) (st : IndexState)
    (docs1 docs2 ups1 unch1 : List Document)
    (hperm : docs1.Perm docs2)
    (h1 : planDocs fs (existing_docs st) docs1 = Except.ok (ups1, unch1)) :
    ∃ ups2 unch2,
      planDocs fs (existing_docs st) docs2 = Except.ok (ups2, unch2) ∧
      ups1.Perm ups2 ∧ unch1.Perm unch2 ∧
      (∀ p, (∃ d ∈ ups1, d.file_path = p) ↔ (∃ d ∈ ups2, d.file_path = p)) ∧
      (∀ p, (∃ d ∈ unch1, d.file_path = p) ↔ (∃ d ∈ unch2, d.file_path = p)) := by
  have hread1 := planDocs_ok_readable fs (existing_docs st) docs1 (ups1, unch1) h1
  have hread2 : ∀ e ∈ docs2, ∃ cc, fs e.file_path = some cc :=
    fun e he => hread1 e (hperm.mem_iff.mpr he)
  have hs1 := planDocs_ok_of_readable fs (existing_docs st) docs1 hread1
  have hs2 := planDocs_ok_of_readable fs (existing_docs st) docs2 hread2
  rw [h1] at hs1
  have hu1 : ups1 = docs1.filterMap (docUpsert? fs (existing_docs st)) :=
    congrArg Prod.fst (Except.ok.inj hs1)
  have hn1 : unch1 = docs1.filter (docUnchanged fs (existing_docs st)) :=
    congrArg Prod.snd (Except.ok.inj hs1)
  subst hu1
  subst hn1
  refine ⟨docs2.filterMap (docUpsert? fs (existing_docs st)),
    docs2.filter (docUnchanged fs (existing_docs st)), hs2,
    hperm.filterMap _, hperm.filter _, ?_, ?_⟩
  · intro p
    constructor
    · rintro ⟨d, hd, hp⟩
      exact ⟨d, (hperm.filterMap _).mem_iff.mp hd, hp⟩
    · rintro ⟨d, hd, hp⟩
      exact ⟨d, (hperm.filterMap _).mem_iff.mpr hd, hp⟩
  · intro p
    constructor
    · rintro ⟨d, hd, hp⟩
      exact ⟨d, (hperm.filter _).mem_iff.mp hd, hp⟩
    · rintro ⟨d, hd, hp⟩
      exact ⟨d, (hperm.filter _).mem_iff.mpr hd, hp⟩

theorem C4_order_independence_witness :
    ∃ ups2 unch2,
      planDocs fsA (existing_docs stEmpty) [docB, docA] = Except.ok (ups2, unch2) ∧
      List.Perm [docAh, docBh] ups2 ∧ List.Perm ([] : List Document) unch2 ∧
      (∀ p, (∃ d ∈ [docAh, docBh], d.file_path = p) ↔ (∃ d ∈ ups2, d.file_path = p)) ∧
      (∀ p, (∃ d ∈ ([] : List Document), d.file_path = p) ↔
        (∃ d ∈ unch2, d.file_path = p)) :=
  C4_order_independence fsA stEmpty [docA, docB] [docB, docA] [docAh, docBh] []
    (List.Perm.swap docB docA []) (by rfl)

/-- C3: a successful pass is idempotent: planning again over the same
live documents against the final index state finds every fingerprint
already recorded, so the second run reports "no changes" and performs no
mutation and no save. -/
theorem C3_idempotence (fs : FileSystem) (st : IndexState) (docs : List Document)
    (r : PassResult)
    (h : update_index fs st docs = Except.ok r) :
    update_index fs r.finalState docs =
      Except.ok ⟨Outcome.noChanges, r.finalState, [], 0⟩ := by
  obtain ⟨ups, unch, hp, hcase⟩ := update_index_ok_cases fs st docs r h
  have hread := planDocs_ok_readable fs (existing_docs st) docs (ups, unch) hp
  have hspec := planDocs_ok_of_readable fs (existing_docs st) docs hread
  rw [hp] at hspec
  have hu : ups = docs.filterMap (docUpsert? fs (existing_docs st)) :=
    congrArg Prod.fst (Except.ok.inj hspec)
  rcases hcase with ⟨hupse, hr⟩ | ⟨hne, hr⟩
  · subst hr
    rw [hupse] at hp
    exact update_index_of_plan_empty fs st docs unch hp
  · subst hr
    have hall : ∀ e2 ∈ docs,
        docUpsert? fs (existing_docs (refresh_ref_docs st ups)) e2 = none := by
      intro e2 he2
      obtain ⟨c, hc⟩ := hread e2 he2
      have hex2 : existing_docs (refresh_ref_docs st ups) e2.file_path
          = some (some (md5Hex c)) := by
        rw [hu]
        exact existing_after_refresh fs st docs e2 c he2 hc
      cases ho : docUpsert? fs (existing_docs (refresh_ref_docs st ups)) e2 with
      | none => rfl
      | some u =>
        obtain ⟨hsh, h1, h2, _⟩ :=
          (docUpsert?_eq_some_iff fs (existing_docs (refresh_ref_docs st ups)) e2 u).mp ho
        rw [get_file_hash_some fs e2.file_path c hc] at h1
        have hhs : md5Hex c = hsh := Except.ok.inj h1
        rw [← hhs, hex2] at h2
        simp [upsertCond] at h2
    have hplan2 := planDocs_ok_of_readable fs
      (existing_docs (refresh_ref_docs st ups)) docs hread
    rw [List.filterMap_eq_nil_iff.mpr hall] at hplan2
    exact update_index_of_plan_empty fs (refresh_ref_docs st ups) docs _ hplan2

theorem C3_idempotence_witness :
    update_index fsA ⟨[docAh, docBh]⟩ [docA, docB] =
      Except.ok ⟨Outcome.noChanges, ⟨[docAh, docBh]⟩, [], 0⟩ :=
  C3_idempotence fsA stEmpty [docA, docB]
    ⟨Outcome.updated 2, ⟨[docAh, docBh]⟩, [[docAh, docBh]], 1⟩ (by rfl)

end PKB
